import Mathlib

/-!
Shallow embedding of the tabular Q-learning demo in
Classroom_Sharing_Qiskit_Codes/qlearning.py, together with proofs of
the documented properties of its agent, environment and training loop.

Numeric conventions: Python floats that only enter exact arithmetic and
comparisons are represented by rationals on the agent/loop side; the
fidelity computation, which genuinely lives in the complex numbers, is
represented over Mathlib's reals and complexes.  The external
collaborators of the code (qiskit circuit drawing, hashlib sha-256 and
the Aer unitary simulator) are abstracted as explicit function
parameters, exactly at the call boundaries the Python code uses them.
-/

/-- Quantum gate identifiers appearing in the fixed action catalog of
QLearningAgent.choose_action. -/
inductive Gate where
  | HGate
  | CXGate
  | SGate
  | TGate
  | XGate
  | YGate
  | ZGate
deriving DecidableEq

/-- A circuit is the ordered list of gate applications appended by
QuantumEnv.step; QuantumCircuit(2) starts empty. -/
abbrev Circuit := List (Gate × List ℕ)

/-- The fixed 14-entry action catalog defined inside choose_action:
each entry is a gate together with its target qubit indices. -/
def possible_actions : List (Gate × List ℕ) :=
  [(Gate.HGate, [0]),
   (Gate.HGate, [1]),
   (Gate.CXGate, [0, 1]),
   (Gate.CXGate, [1, 0]),
   (Gate.SGate, [0]),
   (Gate.SGate, [1]),
   (Gate.TGate, [0]),
   (Gate.TGate, [1]),
   (Gate.XGate, [0]),
   (Gate.XGate, [1]),
   (Gate.YGate, [0]),
   (Gate.YGate, [1]),
   (Gate.ZGate, [0]),
   (Gate.ZGate, [1])]

/-- Model of numpy argmax on a one-dimensional array: the index of the
first occurrence of the maximum value.  On the empty list (which numpy
rejects at runtime) it returns 0. -/
def np_argmax : List ℚ → ℕ
  | [] => 0
  | v :: vs => if vs.getD (np_argmax vs) v ≤ v then 0 else np_argmax vs + 1

/-- Model of numpy max on a one-dimensional array; 0 on the empty list
(which numpy rejects at runtime). -/
def np_max : List ℚ → ℚ
  | [] => 0
  | v :: vs => vs.foldl max v

/-- The Q-learning agent of the source: hyperparameters and the dense
Q-table, modelled as a total function on (state index, action index);
the numpy array of the source is its restriction to
state_size x action_size. -/
structure QLearningAgent where
  state_size : ℕ
  action_size : ℕ
  alpha : ℚ
  gamma : ℚ
  epsilon : ℚ
  decay_rate : ℚ
  epsilon_min : ℚ
  q_table : ℕ → ℕ → ℚ

/-- The numpy row q_table[state_index]: the action_size entries of the
given state's row, in action order. -/
def q_row (ag : QLearningAgent) (state_index : ℕ) : List ℚ :=
  (List.range ag.action_size).map (ag.q_table state_index)

/-- QLearningAgent.choose_action.  The two numpy random draws of the
source are passed in explicitly: r models np.random.rand() (a sample
in [0,1)) and ri models np.random.randint(action_size) (a sample in
[0, action_size)); the exploitation branch is np_argmax over the
state's Q-row.  Returns the catalog entry together with the chosen
index, as the source does. -/
def choose_action (ag : QLearningAgent) (r : ℚ) (ri : ℕ) (state_index : ℕ) :
    (Gate × List ℕ) × ℕ :=
  let action := if r < ag.epsilon then ri else np_argmax (q_row ag state_index)
  (possible_actions.getD action (Gate.HGate, [0]), action)

/-- QLearningAgent.update_q_table: the in-place Bellman update of the
single cell (state_index, action); all other cells are unchanged. -/
def update_q_table (ag : QLearningAgent) (state_index action : ℕ) (reward : ℚ)
    (next_state_index : ℕ) : QLearningAgent :=
  { ag with q_table := fun s a =>
      if s = state_index ∧ a = action then
        ag.q_table state_index action + ag.alpha *
          (reward + ag.gamma * np_max (q_row ag next_state_index) -
            ag.q_table state_index action)
      else ag.q_table s a }

/-- QLearningAgent.decay_exploration. -/
def decay_exploration (ag : QLearningAgent) : QLearningAgent :=
  { ag with epsilon := max ag.epsilon_min (ag.epsilon * ag.decay_rate) }

/-- The environment state of QuantumEnv: the circuit under
construction plus the two state-index maps.  state_to_index models the
insertion-ordered Python dict from hash bucket to dense index, and
index_to_state the list of buckets in first-seen order.  num_qubits is
fixed to 2 in the source. -/
structure QuantumEnv where
  circuit : Circuit
  state_to_index : List (ℕ × ℕ)
  index_to_state : List ℕ
deriving DecidableEq

/-- A freshly constructed QuantumEnv: empty circuit, empty maps. -/
def QuantumEnv.start : QuantumEnv := ⟨[], [], []⟩

/-- QuantumEnv._hash_circuit.  The external composition of the qiskit
text drawing with the sha-256 digest read as an integer is abstracted
as the parameter h; the method then reduces it modulo 100. -/
def hash_circuit (h : Circuit → ℕ) (c : Circuit) : ℕ :=
  h c % 100

/-- QuantumEnv.get_state_index: look the circuit's hash bucket up in
state_to_index; on first encounter assign the next dense index
(the current dict size) and record the bucket in index_to_state. -/
def get_state_index (h : Circuit → ℕ) (e : QuantumEnv) (c : Circuit) :
    ℕ × QuantumEnv :=
  let state_hash := hash_circuit h c
  match e.state_to_index.find? (fun p => p.1 == state_hash) with
  | some p => (p.2, e)
  | none =>
      let index := e.state_to_index.length
      (index,
       { e with
          state_to_index := e.state_to_index ++ [(state_hash, index)],
          index_to_state := e.index_to_state ++ [state_hash] })

/-- QuantumEnv.reset: replace the circuit by the empty circuit and
return the state index of the new circuit. -/
def reset (h : Circuit → ℕ) (e : QuantumEnv) : ℕ × QuantumEnv :=
  let e0 : QuantumEnv := { e with circuit := [] }
  get_state_index h e0 e0.circuit

/-- The iSWAP target unitary of the source. -/
def iswap_matrix : Matrix (Fin 4) (Fin 4) ℂ :=
  !![1, 0, 0, 0;
     0, 0, Complex.I, 0;
     0, Complex.I, 0, 0;
     0, 0, 0, 1]

/-- Number of qubits of the environment (fixed to 2 in the source). -/
def num_qubits : ℕ := 2

/-- Fidelity between the simulated unitary and the target, as computed
in QuantumEnv._reward: the absolute value of the trace of
(conjugate transpose of u) times the target, normalized by
2 to the num_qubits. -/
noncomputable def fidelity (u target : Matrix (Fin 4) (Fin 4) ℂ) : ℝ :=
  Complex.abs (Matrix.trace (u.conjTranspose * target)) / 2 ^ num_qubits

open Classical in
/-- The reward and done pair computed by QuantumEnv._reward from the
simulated unitary of the current circuit and the circuit's gate count:
reward is -5 times the gate count, and when the fidelity to the target
exceeds 0.99 the flag done is set and 100 is added to the reward. -/
noncomputable def reward_done (u target : Matrix (Fin 4) (Fin 4) ℂ)
    (size : ℕ) : ℝ × Bool :=
  let fid := fidelity u target
  let reward : ℝ := -5 * size
  if 0.99 < fid then (reward + 100, true) else (reward, false)

/-- QuantumEnv._reward on an environment: the external Aer unitary
simulator is abstracted as the parameter sim mapping a circuit to its
unitary; the target is the iSWAP matrix stored by the constructor. -/
noncomputable def env_reward (sim : Circuit → Matrix (Fin 4) (Fin 4) ℂ)
    (e : QuantumEnv) : ℝ × Bool :=
  reward_done (sim e.circuit) iswap_matrix e.circuit.length

/-- QuantumEnv.step: append the gate application to the circuit,
compute the new state index and the reward/done pair, and return them
with the updated environment. -/
noncomputable def step (h : Circuit → ℕ) (sim : Circuit → Matrix (Fin 4) (Fin 4) ℂ)
    (e : QuantumEnv) (action : Gate) (qubits : List ℕ) :
    (ℕ × ℝ × Bool) × QuantumEnv :=
  let e0 : QuantumEnv := { e with circuit := e.circuit ++ [(action, qubits)] }
  let si := get_state_index h e0 e0.circuit
  let rd := env_reward sim si.2
  ((si.1, rd.1, rd.2), si.2)

/-- Environment states reachable by the program: the fresh environment,
closed under reset and step, which are the only operations the training
and evaluation loops perform on the environment. -/
inductive EnvReach (h : Circuit → ℕ) (sim : Circuit → Matrix (Fin 4) (Fin 4) ℂ) :
    QuantumEnv → Prop
  | start : EnvReach h sim QuantumEnv.start
  | reset_step (e : QuantumEnv) :
      EnvReach h sim e → EnvReach h sim (reset h e).2
  | env_step (e : QuantumEnv) (g : Gate) (qs : List ℕ) :
      EnvReach h sim e → EnvReach h sim (step h sim e g qs).2

/-- The duck-typed environment interface the loops train_agent and
test_agent use: reset, step (with its two positional parameters action
and qubits), and the circuit size read by the gate-count check.
Rewards are carried as rationals at this level, since the loops only
add and subtract them. -/
structure EnvOps (ε : Type) where
  env_reset : ε → ℕ × ε
  stepf : ε → Gate → List ℕ → (ℕ × ℚ × Bool) × ε
  size : ε → ℕ

/-- The argument lists with which the source calls QuantumEnv.step:
train_agent passes the gate and the qubit list as two positional
arguments; test_agent passes the whole pair returned by choose_action
as a single positional argument. -/
inductive StepArgs where
  | two (gate : Gate) (qubits : List ℕ) : StepArgs
  | one (action : (Gate × List ℕ) × ℕ) : StepArgs

/-- The uncaught Python exception raised when QuantumEnv.step is called
with a single positional argument. -/
def type_error_msg : String :=
  "TypeError: step() missing 1 required positional argument: qubits"

/-- Python positional-argument binding for QuantumEnv.step(action,
qubits): a call with both arguments runs the method; a call with a
single argument raises a TypeError before the method body runs. -/
def step_call {ε : Type} (E : EnvOps ε) (e : ε) :
    StepArgs → Except String ((ℕ × ℚ × Bool) × ε)
  | StepArgs.two g qs => Except.ok (E.stepf e g qs)
  | StepArgs.one _ => Except.error type_error_msg

/-- One record of the arguments of a call to update_q_table, in the
order the source passes them. -/
structure UpdateCall where
  state : ℕ
  action : ℕ
  reward : ℚ
  next_state : ℕ
deriving DecidableEq

/-- How the inner step loop of train_agent ended: terminal state
reported by the environment, forced truncation at more than 10 gates,
or exhaustion of the per-episode step budget. -/
inductive Outcome where
  | done
  | truncated
  | exhausted
deriving DecidableEq

/-- The episode-local state threaded through the inner loop of
train_agent: the environment, the agent, the current state index and
the episode reward accumulator.  The updates field is instrumentation
only: it records the argument tuple of every update_q_table call, in
call order, and feeds back into nothing. -/
structure EpisodeState (ε : Type) where
  env : ε
  agent : QLearningAgent
  state_index : ℕ
  episode_reward : ℚ
  updates : List UpdateCall

/-- One pass through the body of the inner loop of train_agent, up to
but not including the two break checks: choose an action, step the
environment with the gate and qubit-target components, accumulate the
reward, update the Q-table, and move to the next state index.  Returns
the new episode state together with the done flag from the
environment.  r and ri are this step's random draws. -/
def train_body {ε : Type} (E : EnvOps ε) (r : ℚ) (ri : ℕ)
    (st : EpisodeState ε) : EpisodeState ε × Bool :=
  let ca := choose_action st.agent r ri st.state_index
  let sr := E.stepf st.env ca.1.1 ca.1.2
  ({ env := sr.2,
     agent := update_q_table st.agent st.state_index ca.2 sr.1.2.1 sr.1.1,
     state_index := sr.1.1,
     episode_reward := st.episode_reward + sr.1.2.1,
     updates := st.updates ++ [⟨st.state_index, ca.2, sr.1.2.1, sr.1.1⟩] },
   sr.1.2.2)

/-- The inner step loop of train_agent for one episode: run the body,
then break with outcome done when the environment reported done, break
with outcome truncated (subtracting 100 from the episode reward) when
the circuit size exceeds 10, and otherwise continue until the fuel
(the remaining steps of max_steps_per_episode) runs out.  rnd gives
the random draws of the step with the given index t. -/
def train_steps {ε : Type} (E : EnvOps ε) (rnd : ℕ → ℚ × ℕ) :
    ℕ → ℕ → EpisodeState ε → EpisodeState ε × Outcome
  | 0, _, st => (st, Outcome.exhausted)
  | Nat.succ fuel, t, st =>
      let bd := train_body E (rnd t).1 (rnd t).2 st
      if bd.2 then (bd.1, Outcome.done)
      else if 10 < E.size bd.1.env then
        ({ bd.1 with episode_reward := bd.1.episode_reward - 100 },
         Outcome.truncated)
      else train_steps E rnd fuel (t + 1) bd.1

/-- The inner step loop of test_agent for one episode, as written in
the source: choose an action and pass the whole returned pair to the
environment's step as a single positional argument; an uncaught
exception from that call aborts the loop.  In the (never reached)
successful case the loop would move to the next state, render, and
stop on done. -/
def test_steps {ε : Type} (E : EnvOps ε) (rnd : ℕ → ℚ × ℕ) :
    ℕ → ℕ → ε → QLearningAgent → ℕ → Except String (ε × ℕ)
  | 0, _, e, _, s => Except.ok (e, s)
  | Nat.succ fuel, t, e, ag, s =>
      let action := choose_action ag (rnd t).1 (rnd t).2 s
      match step_call E e (StepArgs.one action) with
      | Except.error msg => Except.error msg
      | Except.ok sr =>
          if sr.1.2.2 then Except.ok (sr.2, sr.1.1)
          else test_steps E rnd fuel (t + 1) sr.2 ag sr.1.1

/-- List.getD does not depend on the default when the index is in
bounds. -/
theorem getD_irrel {α : Type} (l : List α) (i : ℕ) (d d2 : α)
    (hi : i < l.length) : l.getD i d = l.getD i d2 := by
  induction l generalizing i with
  | nil => simp at hi
  | cons x xs ih =>
      cases i with
      | zero => simp
      | succ j =>
          simp only [List.getD_cons_succ]
          exact ih j (by simpa using hi)

/-- np_argmax of a nonempty list is a valid index. -/
theorem np_argmax_lt (l : List ℚ) (hl : l ≠ []) : np_argmax l < l.length := by
  induction l with
  | nil => simp at hl
  | cons v vs ih =>
      by_cases hc : vs.getD (np_argmax vs) v ≤ v
      · simp only [np_argmax, if_pos hc, List.length_cons]
        exact Nat.succ_pos _
      · have hvs : vs ≠ [] := by
          intro h
          subst h
          exact hc (by simp)
        simp only [np_argmax, if_neg hc, List.length_cons]
        exact Nat.succ_lt_succ (ih hvs)

/-- The value at np_argmax is an upper bound of every entry. -/
theorem np_argmax_le (l : List ℚ) (i : ℕ) (hi : i < l.length) :
    l.getD i 0 ≤ l.getD (np_argmax l) 0 := by
  induction l generalizing i with
  | nil => simp at hi
  | cons v vs ih =>
      by_cases hc : vs.getD (np_argmax vs) v ≤ v
      · simp only [np_argmax, if_pos hc, List.getD_cons_zero]
        cases i with
        | zero => simp
        | succ j =>
            simp only [List.getD_cons_succ]
            have hj : j < vs.length := by simpa using hi
            have hvs : vs ≠ [] := by
              intro h
              subst h
              simp at hj
            have h2 : vs.getD (np_argmax vs) 0 = vs.getD (np_argmax vs) v :=
              getD_irrel vs _ 0 v (np_argmax_lt vs hvs)
            have h1 : vs.getD j 0 ≤ vs.getD (np_argmax vs) 0 := ih j hj
            rw [h2] at h1
            exact h1.trans hc
      · have hvs : vs ≠ [] := by
          intro h
          subst h
          exact hc (by simp)
        have hltv := np_argmax_lt vs hvs
        have hv : v < vs.getD (np_argmax vs) v := lt_of_not_le hc
        have h2 : vs.getD (np_argmax vs) v = vs.getD (np_argmax vs) 0 :=
          getD_irrel vs _ v 0 hltv
        simp only [np_argmax, if_neg hc, List.getD_cons_succ]
        cases i with
        | zero =>
            simp only [List.getD_cons_zero]
            rw [h2] at hv
            exact le_of_lt hv
        | succ j =>
            simp only [List.getD_cons_succ]
            exact ih j (by simpa using hi)

/-- Every entry strictly before np_argmax is strictly below the value
at np_argmax: numpy argmax returns the first maximum. -/
theorem np_argmax_first (l : List ℚ) (i : ℕ) (hi : i < np_argmax l) :
    l.getD i 0 < l.getD (np_argmax l) 0 := by
  induction l generalizing i with
  | nil => simp [np_argmax] at hi
  | cons v vs ih =>
      by_cases hc : vs.getD (np_argmax vs) v ≤ v
      · simp only [np_argmax, if_pos hc] at hi
        exact absurd hi (Nat.not_lt_zero i)
      · have hvs : vs ≠ [] := by
          intro h
          subst h
          exact hc (by simp)
        have hltv := np_argmax_lt vs hvs
        have hv : v < vs.getD (np_argmax vs) v := lt_of_not_le hc
        have h2 : vs.getD (np_argmax vs) v = vs.getD (np_argmax vs) 0 :=
          getD_irrel vs _ v 0 hltv
        simp only [np_argmax, if_neg hc, List.getD_cons_succ] at hi ⊢
        cases i with
        | zero =>
            simp only [List.getD_cons_zero]
            rw [h2] at hv
            exact hv
        | succ j =>
            exact ih j (Nat.lt_of_succ_lt_succ hi)

/-- Folding max over an all-zero list starting from zero yields
zero. -/
theorem foldl_max_eq_zero (l : List ℚ) (a : ℚ) (ha : a = 0)
    (h : ∀ x ∈ l, x = 0) : l.foldl max a = 0 := by
  induction l generalizing a with
  | nil => simpa using ha
  | cons x xs ih =>
      have hx : x = 0 := h x (by simp)
      simp only [List.foldl_cons]
      exact ih (max a x) (by simp [ha, hx]) (fun y hy => h y (by simp [hy]))

/-- np_max of an all-zero list is zero. -/
theorem np_max_eq_zero (l : List ℚ) (h : ∀ x ∈ l, x = 0) : np_max l = 0 := by
  cases l with
  | nil => rfl
  | cons v vs =>
      have hv : v = 0 := h v (by simp)
      simp only [np_max]
      exact foldl_max_eq_zero vs v hv (fun y hy => h y (by simp [hy]))

/-- If find? fails on the first list, finding on the concatenation is
finding on the second list. -/
theorem find?_append_none {α : Type} (p : α → Bool) (l1 l2 : List α)
    (h : l1.find? p = none) : (l1 ++ l2).find? p = l2.find? p := by
  induction l1 with
  | nil => rfl
  | cons x xs ih =>
      by_cases hx : p x = true
      · rw [List.find?_cons_of_pos _ hx] at h
        exact absurd h (by simp)
      · rw [List.find?_cons_of_neg _ hx] at h
        rw [List.cons_append, List.find?_cons_of_neg _ hx]
        exact ih h

/-- The invariant of the state index table maintained by
get_state_index: the recorded hash buckets are distinct and below 100,
the dense indices are exactly 0, 1, 2, ... in insertion order, and
index_to_state lists the buckets in the same order. -/
def TableInv (e : QuantumEnv) : Prop :=
  (e.state_to_index.map Prod.fst).Nodup ∧
  (∀ p ∈ e.state_to_index, p.1 < 100) ∧
  e.state_to_index.map Prod.snd = List.range e.state_to_index.length ∧
  e.index_to_state = e.state_to_index.map Prod.fst

/-- A table with distinct keys below 100 has at most 100 entries. -/
theorem table_length_le (l : List (ℕ × ℕ)) (hnd : (l.map Prod.fst).Nodup)
    (hb : ∀ p ∈ l, p.1 < 100) : l.length ≤ 100 := by
  have h1 : (l.map Prod.fst).toFinset.card = (l.map Prod.fst).length :=
    List.toFinset_card_of_nodup hnd
  have h2 : (l.map Prod.fst).toFinset ⊆ Finset.range 100 := by
    intro x hx
    rw [List.mem_toFinset] at hx
    obtain ⟨p, hp, rfl⟩ := List.mem_map.mp hx
    exact Finset.mem_range.mpr (hb p hp)
  have h3 := Finset.card_le_card h2
  rw [h1, Finset.card_range, List.length_map] at h3
  exact h3

/-- Core behaviour of get_state_index on a table satisfying the
invariant: the invariant is preserved, the returned index is below
100, the table only grows by appending, the circuit field is
untouched, and a first-seen bucket is assigned the next dense index
and appended to the table. -/
theorem get_state_index_spec (h : Circuit → ℕ) (e : QuantumEnv) (c : Circuit)
    (hi : TableInv e) :
    TableInv (get_state_index h e c).2 ∧
    (get_state_index h e c).1 < 100 ∧
    (∃ t, (get_state_index h e c).2.state_to_index = e.state_to_index ++ t) ∧
    (get_state_index h e c).2.circuit = e.circuit ∧
    (e.state_to_index.find? (fun p => p.1 == hash_circuit h c) = none →
      (get_state_index h e c).1 = e.state_to_index.length ∧
      (get_state_index h e c).2.state_to_index =
        e.state_to_index ++ [(hash_circuit h c, e.state_to_index.length)]) := by
  obtain ⟨hnd, hb, hv, hs⟩ := hi
  cases hf : e.state_to_index.find? (fun p => p.1 == hash_circuit h c) with
  | some p =>
      have hred : get_state_index h e c = (p.2, e) := by
        simp only [get_state_index, hf]
      have hp2 : p.2 < 100 := by
        have hp := List.mem_of_find?_eq_some hf
        have hmem : p.2 ∈ e.state_to_index.map Prod.snd :=
          List.mem_map_of_mem Prod.snd hp
        rw [hv] at hmem
        have hlen := table_length_le e.state_to_index hnd hb
        have := List.mem_range.mp hmem
        omega
      rw [hred]
      exact ⟨⟨hnd, hb, hv, hs⟩, hp2, ⟨[], by simp⟩, rfl,
        fun hnone => Option.noConfusion hnone⟩
  | none =>
      have hnot : hash_circuit h c ∉ e.state_to_index.map Prod.fst := by
        intro hmem
        obtain ⟨q, hq, hq2⟩ := List.mem_map.mp hmem
        have := List.find?_eq_none.mp hf q hq
        simp [hq2] at this
      have hnd2 : ((e.state_to_index ++
          [(hash_circuit h c, e.state_to_index.length)]).map Prod.fst).Nodup := by
        rw [List.map_append]
        rw [List.nodup_append]
        refine ⟨hnd, List.nodup_singleton _, ?_⟩
        intro a ha hmem
        simp only [List.map_cons, List.map_nil, List.mem_singleton] at hmem
        subst hmem
        exact hnot ha
      have hb2 : ∀ p ∈ e.state_to_index ++
          [(hash_circuit h c, e.state_to_index.length)], p.1 < 100 := by
        intro p hp
        rcases List.mem_append.mp hp with hp1 | hp2
        · exact hb p hp1
        · simp only [List.mem_singleton] at hp2
          subst hp2
          exact Nat.mod_lt _ (by norm_num)
      have hv2 : (e.state_to_index ++
            [(hash_circuit h c, e.state_to_index.length)]).map Prod.snd =
          List.range (e.state_to_index ++
            [(hash_circuit h c, e.state_to_index.length)]).length := by
        rw [List.map_append, hv, List.length_append]
        simp [List.range_succ]
      have hlen2 := table_length_le _ hnd2 hb2
      rw [List.length_append] at hlen2
      simp only [List.length_cons, List.length_nil] at hlen2
      have hred : get_state_index h e c =
          (e.state_to_index.length,
           { e with
              state_to_index := e.state_to_index ++
                [(hash_circuit h c, e.state_to_index.length)],
              index_to_state := e.index_to_state ++ [hash_circuit h c] }) := by
        simp only [get_state_index, hf]
      rw [hred]
      refine ⟨⟨hnd2, hb2, hv2, ?_⟩,
        show e.state_to_index.length < 100 by omega,
        ⟨_, rfl⟩, rfl, fun _ => ⟨rfl, rfl⟩⟩
      simp only [List.map_append, List.map_cons, List.map_nil]
      rw [hs]

/-- Every reachable environment satisfies the table invariant. -/
theorem reach_table_inv (h : Circuit → ℕ)
    (sim : Circuit → Matrix (Fin 4) (Fin 4) ℂ) (e : QuantumEnv)
    (hr : EnvReach h sim e) : TableInv e := by
  induction hr with
  | start =>
      exact ⟨by simp [QuantumEnv.start], by simp [QuantumEnv.start],
        by simp [QuantumEnv.start], by simp [QuantumEnv.start]⟩
  | reset_step e _ ih =>
      have h1 : TableInv { e with circuit := ([] : Circuit) } := ih
      exact (get_state_index_spec h { e with circuit := ([] : Circuit) } [] h1).1
  | env_step e g qs _ ih =>
      have h1 : TableInv { e with circuit := e.circuit ++ [(g, qs)] } := ih
      exact (get_state_index_spec h { e with circuit := e.circuit ++ [(g, qs)] }
        (e.circuit ++ [(g, qs)]) h1).1

/-- List.getD agrees with List.get at an in-bounds index. -/
theorem getD_eq_get {α : Type} (l : List α) (d : α) (i : ℕ)
    (hi : i < l.length) : l.getD i d = l.get ⟨i, hi⟩ := by
  induction l generalizing i with
  | nil => simp at hi
  | cons x xs ih =>
      cases i with
      | zero => simp
      | succ j =>
          simp only [List.getD_cons_succ, List.get_cons_succ]
          exact ih j (by simpa using hi)

/-- An agent with the hyperparameters of the main block except that
epsilon is 0, so that action selection is purely greedy, and with the
all-zero initial Q-table. -/
def zero_agent : QLearningAgent where
  state_size := 100
  action_size := 14
  alpha := 1/20
  gamma := 19/20
  epsilon := 0
  decay_rate := 99/100
  epsilon_min := 1/100
  q_table := fun _ _ => 0

/-- The agent of the main block: alpha 0.05, gamma 0.95, epsilon 0.9,
decay rate 0.99, epsilon minimum 0.01, all-zero initial Q-table. -/
def default_agent : QLearningAgent where
  state_size := 100
  action_size := 14
  alpha := 1/20
  gamma := 19/20
  epsilon := 9/10
  decay_rate := 99/100
  epsilon_min := 1/100
  q_table := fun _ _ => 0

/-- An agent whose epsilon and epsilon_min are negative, exercising
decay_exploration outside the nonnegative regime. -/
def neg_agent : QLearningAgent where
  state_size := 100
  action_size := 14
  alpha := 1/20
  gamma := 19/20
  epsilon := -1
  decay_rate := 1/2
  epsilon_min := -2
  q_table := fun _ _ => 0

/-- A miniature loop environment for exercising the training and
evaluation loops: its state is the circuit size, every step appends
one gate, the reported state index equals the size, the reward is -1,
and done is never signalled. -/
def count_env : EnvOps ℕ where
  env_reset := fun _ => (0, 0)
  stepf := fun e _ _ => ((e + 1, -1, false), e + 1)
  size := fun e => e

/-- C1: update_q_table replaces the cell at (state_index, action) by
Q plus alpha times (reward plus gamma times the maximum of the next
state's row minus Q), leaves every other cell unchanged, and applied
once to an all-zero table it sets the cell to exactly alpha times the
reward. -/
theorem C1_update_q_table (ag : QLearningAgent) (s a : ℕ) (r : ℚ) (ns : ℕ) :
    (update_q_table ag s a r ns).q_table s a =
        ag.q_table s a +
          ag.alpha * (r + ag.gamma * np_max (q_row ag ns) - ag.q_table s a) ∧
    (∀ s2 a2, ¬ (s2 = s ∧ a2 = a) →
        (update_q_table ag s a r ns).q_table s2 a2 = ag.q_table s2 a2) ∧
    ((∀ s2 a2, ag.q_table s2 a2 = 0) →
        (update_q_table ag s a r ns).q_table s a = ag.alpha * r) := by
  refine ⟨by simp [update_q_table], ?_, ?_⟩
  · intro s2 a2 hne
    simp only [update_q_table]
    rw [if_neg hne]
  · intro hz
    have hmax : np_max (q_row ag ns) = 0 := by
      apply np_max_eq_zero
      intro x hx
      simp only [q_row, List.mem_map] at hx
      obtain ⟨i, _, hi⟩ := hx
      rw [← hi]
      exact hz ns i
    simp [update_q_table, hz, hmax]

/-- Witness for C1: updating the all-zero table of the concrete agent
at state 3, action 2 with reward 7 writes exactly alpha times 7. -/
theorem C1_update_q_table_witness :
    (update_q_table zero_agent 3 2 7 0).q_table 3 2 = zero_agent.alpha * 7 :=
  (C1_update_q_table zero_agent 3 2 7 0).2.2 (fun _ _ => rfl)

/-- C5: with epsilon 0 and a nonnegative random draw, choose_action is
greedy: it returns the first index attaining the maximum Q-value of
the state's row (lowest-index tie-break) together with the catalog
entry at that index. -/
theorem C5_choose_action_greedy (ag : QLearningAgent) (r : ℚ) (ri : ℕ)
    (s : ℕ) (hr : 0 ≤ r) (heps : ag.epsilon = 0) (hsz : ag.action_size = 14) :
    (choose_action ag r ri s).2 = np_argmax (q_row ag s) ∧
    np_argmax (q_row ag s) < 14 ∧
    (∀ j, j < 14 →
      (q_row ag s).getD j 0 ≤ (q_row ag s).getD (np_argmax (q_row ag s)) 0) ∧
    (∀ j, j < np_argmax (q_row ag s) →
      (q_row ag s).getD j 0 < (q_row ag s).getD (np_argmax (q_row ag s)) 0) ∧
    ∃ hlt : np_argmax (q_row ag s) < possible_actions.length,
      (choose_action ag r ri s).1 =
        possible_actions.get ⟨np_argmax (q_row ag s), hlt⟩ := by
  have hnr : ¬ r < ag.epsilon := by
    rw [heps]
    exact not_lt.mpr hr
  have hlen : (q_row ag s).length = 14 := by simp [q_row, hsz]
  have hne : q_row ag s ≠ [] := by
    intro h
    rw [h] at hlen
    simp at hlen
  have harg : np_argmax (q_row ag s) < 14 := hlen ▸ np_argmax_lt _ hne
  have hpa : possible_actions.length = 14 := by rfl
  refine ⟨?_, harg, ?_, ?_, ?_⟩
  · simp [choose_action, hnr]
  · intro j hj
    exact np_argmax_le _ j (by rw [hlen]; exact hj)
  · intro j hj
    exact np_argmax_first _ j hj
  · refine ⟨by rw [hpa]; exact harg, ?_⟩
    simp only [choose_action, if_neg hnr]
    exact getD_eq_get possible_actions _ _ _

/-- Witness for C5 at a concrete input: the concrete greedy agent on
the all-zero row selects index 0. -/
theorem C5_choose_action_greedy_witness :
    (0 : ℚ) ≤ 1/2 ∧ zero_agent.epsilon = 0 ∧ zero_agent.action_size = 14 ∧
    (choose_action zero_agent (1/2) 0 0).2 = np_argmax (q_row zero_agent 0) ∧
    np_argmax (q_row zero_agent 0) < 14 :=
  ⟨by norm_num, rfl, rfl,
    (C5_choose_action_greedy zero_agent (1/2) 0 0 (by norm_num) rfl rfl).1,
    (C5_choose_action_greedy zero_agent (1/2) 0 0 (by norm_num) rfl rfl).2.1⟩

/-- Counterexample to C6 as stated: with epsilon -1, epsilon_min -2
and decay rate 1/2 the stated hypotheses hold (epsilon is at least
epsilon_min and the decay rate lies in (0, 1]) yet decay_exploration
raises epsilon from -1 to -1/2, so epsilon is not non-increasing. -/
theorem C6_counterexample :
    neg_agent.epsilon_min ≤ neg_agent.epsilon ∧
    0 < neg_agent.decay_rate ∧ neg_agent.decay_rate ≤ 1 ∧
    (decay_exploration neg_agent).epsilon = -(1/2) ∧
    ¬ (decay_exploration neg_agent).epsilon ≤ neg_agent.epsilon := by
  refine ⟨by norm_num [neg_agent], by norm_num [neg_agent],
    by norm_num [neg_agent], ?_, ?_⟩
  · show max (-2 : ℚ) (-1 * (1/2)) = -(1/2)
    norm_num
  · show ¬ max (-2 : ℚ) (-1 * (1/2)) ≤ -1
    norm_num

/-- C6 amended: decay_exploration always sets epsilon to
max(epsilon_min, epsilon times decay_rate); when additionally
0 ≤ epsilon_min ≤ epsilon and the decay rate lies in (0, 1], epsilon
never drops below epsilon_min and is non-increasing across successive
calls. -/
theorem C6_decay_amended (ag : QLearningAgent)
    (h0 : 0 ≤ ag.epsilon_min) (h1 : ag.epsilon_min ≤ ag.epsilon)
    (_h2 : 0 < ag.decay_rate) (h3 : ag.decay_rate ≤ 1) :
    (decay_exploration ag).epsilon =
        max ag.epsilon_min (ag.epsilon * ag.decay_rate) ∧
    ag.epsilon_min ≤ (decay_exploration ag).epsilon ∧
    (decay_exploration ag).epsilon ≤ ag.epsilon ∧
    (decay_exploration (decay_exploration ag)).epsilon ≤
      (decay_exploration ag).epsilon := by
  have heps0 : 0 ≤ ag.epsilon := le_trans h0 h1
  have hle : ag.epsilon * ag.decay_rate ≤ ag.epsilon :=
    mul_le_of_le_one_right heps0 h3
  refine ⟨rfl, le_max_left _ _, max_le h1 hle, ?_⟩
  have h1b : ag.epsilon_min ≤ (decay_exploration ag).epsilon :=
    le_max_left _ _
  have heps0b : 0 ≤ (decay_exploration ag).epsilon := le_trans h0 h1b
  have hle2 : (decay_exploration ag).epsilon * ag.decay_rate ≤
      (decay_exploration ag).epsilon :=
    mul_le_of_le_one_right heps0b h3
  exact max_le h1b hle2

/-- Witness for the amended C6 at the hyperparameters of the main
block. -/
theorem C6_decay_witness :
    (decay_exploration default_agent).epsilon =
        max default_agent.epsilon_min
          (default_agent.epsilon * default_agent.decay_rate) ∧
    default_agent.epsilon_min ≤ (decay_exploration default_agent).epsilon ∧
    (decay_exploration default_agent).epsilon ≤ default_agent.epsilon ∧
    (decay_exploration (decay_exploration default_agent)).epsilon ≤
      (decay_exploration default_agent).epsilon :=
  C6_decay_amended default_agent (by norm_num [default_agent])
    (by norm_num [default_agent]) (by norm_num [default_agent])
    (by norm_num [default_agent])

/-- get_state_index never touches the circuit field. -/
theorem get_state_index_circuit (h : Circuit → ℕ) (e : QuantumEnv)
    (c : Circuit) : (get_state_index h e c).2.circuit = e.circuit := by
  simp only [get_state_index]
  cases e.state_to_index.find? (fun p => p.1 == hash_circuit h c) <;> rfl

/-- C7: calling reset twice in a row returns the same state index both
times, and the very first reset of a fresh environment returns state
index 0. -/
theorem C7_reset_idempotent (h : Circuit → ℕ) (e : QuantumEnv) :
    (reset h (reset h e).2).1 = (reset h e).1 ∧
    (reset h QuantumEnv.start).1 = 0 := by
  constructor
  · cases hf : e.state_to_index.find?
        (fun p => p.1 == hash_circuit h ([] : Circuit)) with
    | some p =>
        have hr1 : reset h e = (p.2, { e with circuit := ([] : Circuit) }) := by
          simp only [reset, get_state_index, hf]
        rw [hr1]
        simp only [reset, get_state_index, hf]
    | none =>
        have hr1 : reset h e =
            (e.state_to_index.length,
             { e with
                circuit := ([] : Circuit),
                state_to_index := e.state_to_index ++
                  [(hash_circuit h [], e.state_to_index.length)],
                index_to_state := e.index_to_state ++ [hash_circuit h []] }) := by
          simp only [reset, get_state_index, hf]
        rw [hr1]
        have hfind : (e.state_to_index ++
              [(hash_circuit h [], e.state_to_index.length)]).find?
              (fun p => p.1 == hash_circuit h ([] : Circuit)) =
            some (hash_circuit h [], e.state_to_index.length) := by
          rw [find?_append_none _ _ _ hf]
          simp [List.find?]
        simp only [reset, get_state_index, hfind]
  · simp [reset, get_state_index, QuantumEnv.start, List.find?]

/-- Counterexample to the last conjunct of C8 as stated: for no
hashing service, simulation service and reachable environment does
the dense-index side of the state index table exceed 100 entries. -/
theorem C8_counterexample :
    ¬ ∃ (h : Circuit → ℕ) (sim : Circuit → Matrix (Fin 4) (Fin 4) ℂ)
        (e : QuantumEnv), EnvReach h sim e ∧ 100 < e.state_to_index.length := by
  rintro ⟨h, sim, e, hr, hlen⟩
  obtain ⟨hnd, hb, _, _⟩ := reach_table_inv h sim e hr
  have := table_length_le e.state_to_index hnd hb
  omega

/-- C8 amended: on every reachable environment, a first-seen bucket is
assigned the next dense index in order (the dense indices are exactly
0, 1, 2, ... in insertion order), the table only ever grows by
appending, equal hash values give the same index, and the dense-index
side can never exceed 100 entries, every returned index being below
100. -/
theorem C8_state_index_table (h : Circuit → ℕ)
    (sim : Circuit → Matrix (Fin 4) (Fin 4) ℂ) (e : QuantumEnv)
    (hr : EnvReach h sim e) (c : Circuit) :
    (e.state_to_index.find? (fun p => p.1 == hash_circuit h c) = none →
      (get_state_index h e c).1 = e.state_to_index.length ∧
      (get_state_index h e c).2.state_to_index =
        e.state_to_index ++ [(hash_circuit h c, e.state_to_index.length)]) ∧
    e.state_to_index.map Prod.snd = List.range e.state_to_index.length ∧
    (∃ t, (get_state_index h e c).2.state_to_index =
      e.state_to_index ++ t) ∧
    (∀ c2, h c = h c2 →
      (get_state_index h e c).1 = (get_state_index h e c2).1) ∧
    e.state_to_index.length ≤ 100 ∧
    (get_state_index h e c).1 < 100 := by
  obtain ⟨hnd, hb, hv, hs⟩ := reach_table_inv h sim e hr
  have hspec := get_state_index_spec h e c ⟨hnd, hb, hv, hs⟩
  refine ⟨hspec.2.2.2.2, hv, hspec.2.2.1, ?_,
    table_length_le _ hnd hb, hspec.2.1⟩
  intro c2 hcc
  have hh : hash_circuit h c = hash_circuit h c2 := by
    simp [hash_circuit, hcc]
  simp only [get_state_index]
  rw [hh]

/-- Witness for the amended C8 on the fresh environment. -/
theorem C8_state_index_table_witness :
    QuantumEnv.start.state_to_index.length ≤ 100 ∧
    (get_state_index (fun _ => 0) QuantumEnv.start []).1 < 100 :=
  ⟨(C8_state_index_table (fun _ => 0) (fun _ => 1) QuantumEnv.start
      EnvReach.start []).2.2.2.2.1,
   (C8_state_index_table (fun _ => 0) (fun _ => 1) QuantumEnv.start
      EnvReach.start []).2.2.2.2.2⟩

/-- C10: on every reachable environment, every state index returned by
get_state_index, and hence by reset and step, is below 100, so
indexing the 100-row Q-table with it is in bounds. -/
theorem C10_state_index_bound (h : Circuit → ℕ)
    (sim : Circuit → Matrix (Fin 4) (Fin 4) ℂ) (e : QuantumEnv)
    (hr : EnvReach h sim e) :
    (∀ c, (get_state_index h e c).1 < 100) ∧
    (reset h e).1 < 100 ∧
    (∀ g qs, (step h sim e g qs).1.1 < 100) := by
  have hinv := reach_table_inv h sim e hr
  refine ⟨fun c => (get_state_index_spec h e c hinv).2.1, ?_, ?_⟩
  · have h1 : TableInv { e with circuit := ([] : Circuit) } := hinv
    exact (get_state_index_spec h { e with circuit := ([] : Circuit) }
      [] h1).2.1
  · intro g qs
    have h1 : TableInv { e with circuit := e.circuit ++ [(g, qs)] } := hinv
    exact (get_state_index_spec h { e with circuit := e.circuit ++ [(g, qs)] }
      (e.circuit ++ [(g, qs)]) h1).2.1

/-- Witness for C10 on the fresh environment. -/
theorem C10_state_index_bound_witness :
    (get_state_index (fun _ => 0) QuantumEnv.start []).1 < 100 :=
  (C10_state_index_bound (fun _ => 0) (fun _ => 1) QuantumEnv.start
    EnvReach.start).1 []

/-- Characterization of reward_done: done holds exactly when the
fidelity exceeds 0.99, and the reward is -5 times the gate count plus
100 exactly when done. -/
theorem reward_done_spec (u target : Matrix (Fin 4) (Fin 4) ℂ) (n : ℕ) :
    ((reward_done u target n).2 = true ↔ 0.99 < fidelity u target) ∧
    (reward_done u target n).1 =
      -5 * n + if (reward_done u target n).2 then (100 : ℝ) else 0 := by
  simp only [reward_done]
  split
  next hf => simp [hf]
  next hf => simp [hf]

/-- The reward/done pair returned by step is exactly reward_done of
the simulated unitary of the whole appended circuit at its full gate
count. -/
theorem step_reward_eq (h : Circuit → ℕ)
    (sim : Circuit → Matrix (Fin 4) (Fin 4) ℂ) (e : QuantumEnv)
    (g : Gate) (qs : List ℕ) :
    (step h sim e g qs).1.2 =
      reward_done (sim (e.circuit ++ [(g, qs)])) iswap_matrix
        (e.circuit.length + 1) := by
  simp only [step, env_reward]
  rw [get_state_index_circuit]
  simp [List.length_append]

/-- C2: reward is -5 times the number of gates in the circuit, with
100 added and done signalled exactly when the fidelity to the target
exceeds 0.99; at the step level the penalty is recomputed from the
whole new circuit's size, not as a per-step delta. -/
theorem C2_reward_policy (u target : Matrix (Fin 4) (Fin 4) ℂ) (n : ℕ)
    (h : Circuit → ℕ) (sim : Circuit → Matrix (Fin 4) (Fin 4) ℂ)
    (e : QuantumEnv) (g : Gate) (qs : List ℕ) :
    ((reward_done u target n).2 = true ↔ 0.99 < fidelity u target) ∧
    ((reward_done u target n).1 =
      -5 * n + if (reward_done u target n).2 then (100 : ℝ) else 0) ∧
    ((step h sim e g qs).1.2.1 =
      -5 * ((e.circuit.length + 1 : ℕ) : ℝ) +
        if (step h sim e g qs).1.2.2 then (100 : ℝ) else 0) ∧
    ((step h sim e g qs).1.2.2 = true ↔
      0.99 < fidelity (sim (e.circuit ++ [(g, qs)])) iswap_matrix) := by
  refine ⟨(reward_done_spec u target n).1, (reward_done_spec u target n).2,
    ?_, ?_⟩
  · rw [step_reward_eq]
    exact (reward_done_spec _ _ _).2
  · rw [step_reward_eq]
    exact (reward_done_spec _ _ _).1

/-- The fidelity of the identity unitary to the iSWAP target is
exactly 1/2: the trace of the product is 2 and the normalization is
2 to the 2. -/
theorem fidelity_one_iswap :
    fidelity (1 : Matrix (Fin 4) (Fin 4) ℂ) iswap_matrix = 1/2 := by
  have htr : Matrix.trace
      ((1 : Matrix (Fin 4) (Fin 4) ℂ).conjTranspose * iswap_matrix) = 2 := by
    rw [Matrix.conjTranspose_one, one_mul]
    simp [iswap_matrix, Matrix.trace, Matrix.diag, Fin.sum_univ_four]
    norm_num
  simp only [fidelity, htr, num_qubits]
  rw [Complex.abs_two]
  norm_num

/-- C9: on the empty circuit, whose simulated unitary is the identity,
the reward is -5 times 0, that is 0, and done is false, the fidelity
to the iSWAP target being 1/2, which does not exceed 0.99. -/
theorem C9_empty_circuit_reward (sim : Circuit → Matrix (Fin 4) (Fin 4) ℂ)
    (hsim : sim [] = 1) :
    env_reward sim QuantumEnv.start = ((0 : ℝ), false) ∧
    fidelity (1 : Matrix (Fin 4) (Fin 4) ℂ) iswap_matrix = 1/2 := by
  refine ⟨?_, fidelity_one_iswap⟩
  have h1 : env_reward sim QuantumEnv.start = reward_done 1 iswap_matrix 0 := by
    simp [env_reward, QuantumEnv.start, hsim]
  rw [h1]
  simp only [reward_done]
  rw [if_neg (by rw [fidelity_one_iswap]; norm_num)]
  norm_num

/-- Witness for C9: with the simulation service that yields the
identity for every circuit, the reward of the fresh environment is
(0, false). -/
theorem C9_empty_circuit_reward_witness :
    env_reward (fun _ => 1) QuantumEnv.start = ((0 : ℝ), false) :=
  (C9_empty_circuit_reward (fun _ => 1) rfl).1

/-- Each pass through the training loop body logs exactly one
update_q_table call, whose next_state is the new state index and whose
reward is what was added to the episode reward. -/
theorem train_body_updates {ε : Type} (E : EnvOps ε) (r : ℚ) (ri : ℕ)
    (st : EpisodeState ε) :
    ∃ u : UpdateCall,
      (train_body E r ri st).1.updates = st.updates ++ [u] ∧
      u.next_state = (train_body E r ri st).1.state_index ∧
      (train_body E r ri st).1.episode_reward =
        st.episode_reward + u.reward := by
  exact ⟨_, rfl, rfl, rfl⟩

/-- The training loop only ever appends to the update log. -/
theorem train_steps_updates_append {ε : Type} (E : EnvOps ε)
    (rnd : ℕ → ℚ × ℕ) (fuel : ℕ) : ∀ (t : ℕ) (st : EpisodeState ε),
    ∃ l, (train_steps E rnd fuel t st).1.updates = st.updates ++ l := by
  induction fuel with
  | zero =>
      intro t st
      exact ⟨[], by simp [train_steps]⟩
  | succ fuel ih =>
      intro t st
      obtain ⟨u, hu1, _, _⟩ := train_body_updates E (rnd t).1 (rnd t).2 st
      simp only [train_steps]
      by_cases hdn : (train_body E (rnd t).1 (rnd t).2 st).2 = true
      · rw [if_pos hdn]
        exact ⟨[u], hu1⟩
      · rw [if_neg hdn]
        by_cases hsz : 10 < E.size (train_body E (rnd t).1 (rnd t).2 st).1.env
        · rw [if_pos hsz]
          exact ⟨[u], hu1⟩
        · rw [if_neg hsz]
          obtain ⟨l, hl⟩ := ih (t + 1) (train_body E (rnd t).1 (rnd t).2 st).1
          refine ⟨u :: l, ?_⟩
          rw [hl, hu1]
          simp

/-- C3 amended: when the training loop truncates an episode because
the circuit exceeds 10 gates, at least one update_q_table call has
been made, the last one is precisely the truncating transition (its
next_state is the final state index, whose circuit size exceeds 10),
and the episode reward is the sum of the rewards passed to the
update_q_table calls minus the extra 100 penalty, which therefore is
applied to the episode-local reward only, after the update call. -/
theorem C3_truncation (ε : Type) (E : EnvOps ε) (rnd : ℕ → ℚ × ℕ)
    (fuel t : ℕ) (st : EpisodeState ε)
    (htr : (train_steps E rnd fuel t st).2 = Outcome.truncated) :
    st.updates.length < (train_steps E rnd fuel t st).1.updates.length ∧
    (∃ u : UpdateCall,
      (train_steps E rnd fuel t st).1.updates.getLast? = some u ∧
      u.next_state = (train_steps E rnd fuel t st).1.state_index ∧
      10 < E.size (train_steps E rnd fuel t st).1.env) ∧
    (train_steps E rnd fuel t st).1.episode_reward =
      st.episode_reward +
        (((train_steps E rnd fuel t st).1.updates.drop
          st.updates.length).map UpdateCall.reward).sum - 100 := by
  induction fuel generalizing t st with
  | zero => simp [train_steps] at htr
  | succ fuel ih =>
      obtain ⟨u, hu1, hu2, hu3⟩ := train_body_updates E (rnd t).1 (rnd t).2 st
      simp only [train_steps] at htr ⊢
      by_cases hdn : (train_body E (rnd t).1 (rnd t).2 st).2 = true
      · rw [if_pos hdn] at htr
        simp at htr
      · rw [if_neg hdn] at htr ⊢
        by_cases hsz : 10 < E.size (train_body E (rnd t).1 (rnd t).2 st).1.env
        · rw [if_pos hsz] at htr ⊢
          dsimp only
          refine ⟨?_, ⟨u, ?_, hu2, hsz⟩, ?_⟩
          · rw [hu1]
            simp
          · rw [hu1]
            exact List.getLast?_concat _
          · rw [hu1, hu3, List.drop_left]
            simp only [List.map_cons, List.map_nil, List.sum_cons,
              List.sum_nil]
            ring
        · rw [if_neg hsz] at htr ⊢
          obtain ⟨ih1, ih2, ih3⟩ :=
            ih (t + 1) (train_body E (rnd t).1 (rnd t).2 st).1 htr
          have hblen : (train_body E (rnd t).1 (rnd t).2 st).1.updates.length =
              st.updates.length + 1 := by
            rw [hu1]
            simp
          refine ⟨by omega, ih2, ?_⟩
          obtain ⟨l, hl⟩ := train_steps_updates_append E rnd fuel (t + 1)
            (train_body E (rnd t).1 (rnd t).2 st).1
          rw [hl, hu1] at ih3 ⊢
          rw [List.drop_left] at ih3
          rw [hu3] at ih3
          rw [List.append_assoc, List.drop_left]
          rw [ih3]
          simp only [List.map_append, List.map_cons, List.map_nil,
            List.sum_append, List.sum_cons, List.sum_nil]
          ring

/-- An agent with epsilon 1, so that every step takes the exploration
branch, and the all-zero initial Q-table. -/
def explore_agent : QLearningAgent where
  state_size := 100
  action_size := 14
  alpha := 1
  gamma := 1
  epsilon := 1
  decay_rate := 99/100
  epsilon_min := 1/100
  q_table := fun _ _ => 0

/-- The random draws used by the concrete training run: rand 0 and
randint 0 at every step. -/
def demo_rnd : ℕ → ℚ × ℕ := fun _ => (0, 0)

/-- The concrete episode start state: fresh miniature environment,
exploring zero-initialized agent, state index 0, episode reward 0, no
updates logged yet. -/
def demo_start : EpisodeState ℕ := ⟨0, explore_agent, 0, 0, []⟩

/-- Counterexample to C3 as stated: in the concrete truncated episode
the loop logs 11 update_q_table calls, and the last of them is exactly
the final truncating transition, from state 10 into state 11, whose
circuit size 11 exceeds 10; so update_q_table is called for the final
truncating transition, contrary to the claim. -/
theorem C3_counterexample :
    (train_steps count_env demo_rnd 12 0 demo_start).2 = Outcome.truncated ∧
    (train_steps count_env demo_rnd 12 0 demo_start).1.updates.length = 11 ∧
    (train_steps count_env demo_rnd 12 0 demo_start).1.updates.getLast? =
      some ⟨10, 0, -1, 11⟩ ∧
    10 < count_env.size
      (train_steps count_env demo_rnd 12 0 demo_start).1.env ∧
    (train_steps count_env demo_rnd 12 0 demo_start).1.state_index = 11 := by
  decide

/-- Witness for the amended C3 on the concrete truncated episode. -/
theorem C3_truncation_witness :
    (train_steps count_env demo_rnd 12 0 demo_start).2 = Outcome.truncated ∧
    (demo_start.updates.length <
        (train_steps count_env demo_rnd 12 0 demo_start).1.updates.length ∧
      (∃ u : UpdateCall,
        (train_steps count_env demo_rnd 12 0 demo_start).1.updates.getLast? =
          some u ∧
        u.next_state =
          (train_steps count_env demo_rnd 12 0 demo_start).1.state_index ∧
        10 < count_env.size
          (train_steps count_env demo_rnd 12 0 demo_start).1.env) ∧
      (train_steps count_env demo_rnd 12 0 demo_start).1.episode_reward =
        demo_start.episode_reward +
          (((train_steps count_env demo_rnd 12 0 demo_start).1.updates.drop
            demo_start.updates.length).map UpdateCall.reward).sum - 100) :=
  ⟨by decide, C3_truncation ℕ count_env demo_rnd 12 0 demo_start (by decide)⟩

/-- C4 (the source bug made precise): on every environment, agent,
state and random stream, the evaluation loop aborts its very first
step with the TypeError raised by calling the environment's step with
the whole choose_action result as a single positional argument, so no
evaluation step ever reaches the environment with the chosen gate and
qubit targets the way the training loop does. -/
theorem C4_test_agent_type_error (ε : Type) (E : EnvOps ε)
    (rnd : ℕ → ℚ × ℕ) (fuel t : ℕ) (e : ε) (ag : QLearningAgent) (s : ℕ) :
    test_steps E rnd (fuel + 1) t e ag s = Except.error type_error_msg := rfl
